import Mathlib

set_option maxHeartbeats 1000000

namespace Flowgo

/-! Shallow embedding of `backend/internal/document/document.go`.

Go strings are modelled as `List Char`; the Go `int` chunk parameters are
modelled as `Nat` (the upload handler only passes positive values, and every
claim quantifies over positive sizes and strides).  Network effects are
modelled by oracle environments: an HTTP round trip is an
`Option HttpResponse` (`none` is a transport-level error) and JSON decoding
of a body is an oracle function on the raw body. -/

/-- Go `unicode.IsSpace`, the predicate used by `strings.Fields`: ASCII
whitespace, the Latin-1 NEL and NBSP characters, and the Unicode
White_Space code points. -/
def goIsSpace (c : Char) : Bool :=
  c.toNat == 9 || c.toNat == 10 || c.toNat == 11 || c.toNat == 12 ||
  c.toNat == 13 || c.toNat == 32 || c.toNat == 0x85 || c.toNat == 0xA0 ||
  c.toNat == 0x1680 ||
  (decide (0x2000 ≤ c.toNat) && decide (c.toNat ≤ 0x200A)) ||
  c.toNat == 0x2028 || c.toNat == 0x2029 || c.toNat == 0x202F ||
  c.toNat == 0x205F || c.toNat == 0x3000

/-- Go `strings.Fields`: splits a string into the maximal runs of
non-whitespace characters, discarding all whitespace. -/
def fields : List Char → List (List Char)
  | [] => []
  | [c] => if goIsSpace c then [] else [[c]]
  | c :: d :: rest =>
    if goIsSpace c then fields (d :: rest)
    else if goIsSpace d then [c] :: fields (d :: rest)
    else
      match fields (d :: rest) with
      | [] => [[c]]
      | w :: ws => (c :: w) :: ws

/-- Go `strings.Join`. -/
def strJoin (sep : List Char) : List (List Char) → List Char
  | [] => []
  | [w] => w
  | w :: x :: ws => w ++ sep ++ strJoin sep (x :: ws)

/-- The chunk that one iteration of the loop in `ChunkText` emits for a
window starting at word index `i`: `strings.Join(words[i:end], " ")` where
`end = i + size` clipped to `len(words)`. -/
def chunkAt (words : List (List Char)) (size i : Nat) : List Char :=
  strJoin [' ']
    (List.take ((if words.length < i + size then words.length else i + size) - i)
      (List.drop i words))

/-- The loop `for i := 0; i < len(words); i += stride` of `ChunkText`:
each iteration emits `words[i:end]` joined by a single space and breaks as
soon as a window reaches the end of the word list.  The structural `fuel`
argument bounds the number of iterations; `ChunkText` passes
`words.length`, which is enough fuel whenever `stride ≥ 1`
(`chunkTextTerminates` proves that more fuel never changes the result). -/
def chunkLoop (words : List (List Char)) (size stride : Nat) : Nat → Nat → List (List Char)
  | 0, _ => []
  | fuel + 1, i =>
    if i < words.length then
      if (if words.length < i + size then words.length else i + size) = words.length then
        [chunkAt words size i]
      else
        chunkAt words size i :: chunkLoop words size stride fuel (i + stride)
    else []

/-- `ChunkText` from `document.go`: splits the text into chunks of `size`
words advancing by `stride` words, returning the empty list when the text
has no words. -/
def ChunkText (text : List Char) (size stride : Nat) : List (List Char) :=
  let words := fields text
  if words.length = 0 then []
  else chunkLoop words size stride words.length 0

/-- The number of whitespace-separated words in a string. -/
def wordCount (s : List Char) : Nat :=
  (fields s).length

/-- An HTTP response as the handlers observe it: a status code and a raw
body.  A round trip that can fail at the transport level is modelled as an
`Option HttpResponse`, with `none` for the transport error. -/
structure HttpResponse where
  statusCode : Nat
  body : List Char
deriving DecidableEq

/-- The error cases of `getEmbedding`, one per `fmt.Errorf` site. -/
inductive EmbedError where
  | postFailed
  | badStatus (status : Nat) (body : List Char)
  | decodeFailed
deriving DecidableEq

/-- Oracle environment for `getEmbedding`: the outcome of the POST to
`/api/embeddings` and the JSON decoding of its body into
`EmbeddingResponse{Embedding []float32}` (`none` models a decoder error). -/
structure EmbedEnv where
  postResp : Option HttpResponse
  decodeEmbedding : List Char → Option (List Float)

/-- `getEmbedding` from `document.go`: POST the prompt, fail on transport
error, fail with the status and body on a non-200 status, fail on a decode
error, and otherwise return the parsed vector. -/
def getEmbedding (env : EmbedEnv) : Except EmbedError (List Float) :=
  match env.postResp with
  | none => .error .postFailed
  | some resp =>
    if resp.statusCode ≠ 200 then .error (.badStatus resp.statusCode resp.body)
    else
      match env.decodeEmbedding resp.body with
      | none => .error .decodeFailed
      | some v => .ok v

/-- The error cases of `getOrCreateCollection`, one per `fmt.Errorf` site. -/
inductive ProvisionError where
  | getDecodeFailed
  | createPostFailed
  | createBadStatus (status : Nat) (body : List Char)
  | createDecodeFailed
  | emptyCollectionID
deriving DecidableEq

/-- Oracle environment for `getOrCreateCollection`: the outcome of the GET
of the collection by name, the outcome of the creating POST, and the JSON
decoding of a body into `struct{ID string}` (`none` models a decoder
error; a decoded `ID` may be empty). -/
structure ChromaEnv where
  getResp : Option HttpResponse
  createResp : Option HttpResponse
  decodeID : List Char → Option String

/-- The creation half of `getOrCreateCollection` (`document.go` lines
363-388): POST the name, fail on transport error, fail with the upstream
status and body on a status other than 200/201, fail on a decode error,
fail when the decoded identifier is empty, and otherwise return it. -/
def createCollection (env : ChromaEnv) : Except ProvisionError String :=
  match env.createResp with
  | none => .error .createPostFailed
  | some resp =>
    if resp.statusCode ≠ 200 ∧ resp.statusCode ≠ 201 then
      .error (.createBadStatus resp.statusCode resp.body)
    else
      match env.decodeID resp.body with
      | none => .error .createDecodeFailed
      | some cid => if cid = "" then .error .emptyCollectionID else .ok cid

/-- `getOrCreateCollection` from `document.go`: try the GET first; on a 200
status return the decoded identifier (a decode error is fatal); on a
transport error or any other status fall through to `createCollection`. -/
def getOrCreateCollection (env : ChromaEnv) : Except ProvisionError String :=
  match env.getResp with
  | some resp =>
    if resp.statusCode = 200 then
      match env.decodeID resp.body with
      | none => .error .getDecodeFailed
      | some cid => .ok cid
    else createCollection env
  | none => createCollection env

/-- `ChromaQueryResponse` from `document.go`; the opaque
`[][]interface{}` metadata entries are modelled as raw JSON fragments. -/
structure ChromaQueryResponse where
  ids : List (List String)
  documents : List (List String)
  metadatas : List (List (List Char))
  distances : List (List Float)

/-- The error cases of `queryChroma`: a propagated provisioning error plus
one case per `fmt.Errorf`/return site. -/
inductive QueryError where
  | provisioningFailed (e : ProvisionError)
  | postFailed
  | badStatus (status : Nat) (body : List Char)
  | decodeFailed

/-- Oracle environment for `queryChroma`: the environment of its
`getOrCreateCollection` call, the outcome of the query POST, and the JSON
decoding of the response body. -/
structure QueryEnv where
  chroma : ChromaEnv
  queryResp : Option HttpResponse
  decodeQuery : List Char → Option ChromaQueryResponse

/-- `queryChroma` from `document.go`: resolve the collection (propagating
its error), POST the query embedding, fail on transport error, fail with
the status and body on a status of 300 or above, fail on a decode error,
and otherwise return the parsed result. -/
def queryChroma (env : QueryEnv) : Except QueryError ChromaQueryResponse :=
  match getOrCreateCollection env.chroma with
  | .error e => .error (.provisioningFailed e)
  | .ok _ =>
    match env.queryResp with
    | none => .error .postFailed
    | some resp =>
      if 300 ≤ resp.statusCode then .error (.badStatus resp.statusCode resp.body)
      else
        match env.decodeQuery resp.body with
        | none => .error .decodeFailed
        | some res => .ok res

/-- What `HandleSearch` writes to the HTTP response, one case per exit. -/
inductive SearchOutcome where
  | methodNotAllowed
  | missingQuery
  | embedFailed (e : EmbedError)
  | queryFailed (e : QueryError)
  | results (r : ChromaQueryResponse)

/-- `HandleSearch` from `document.go`: reject non-GET methods and an empty
`q`, embed the query (a failure becomes an HTTP 500), query the store (a
failure becomes an HTTP 500), and otherwise return the results. -/
def HandleSearch (method q : String) (eenv : EmbedEnv) (qenv : QueryEnv) : SearchOutcome :=
  if method ≠ "GET" then .methodNotAllowed
  else if q = "" then .missingQuery
  else
    match getEmbedding eenv with
    | .error e => .embedFailed e
    | .ok _ =>
      match queryChroma qenv with
      | .error e => .queryFailed e
      | .ok r => .results r

/-- What `HandleReset` writes to the HTTP response, one case per exit. -/
inductive ResetOutcome where
  | methodNotAllowed
  | requestBuildFailed
  | transportFailed
  | chromaResetError (body : List Char)
  | resetSuccessful
deriving DecidableEq

/-- `HandleReset` from `document.go`: reject methods other than POST/GET,
fail if building the DELETE request fails, fail on a transport error, fail
with the body on a status other than 200 and 404, and otherwise report a
successful reset. -/
def HandleReset (method : String) (newRequestOk : Bool) (deleteResp : Option HttpResponse) : ResetOutcome :=
  if method ≠ "POST" ∧ method ≠ "GET" then .methodNotAllowed
  else if !newRequestOk then .requestBuildFailed
  else
    match deleteResp with
    | none => .transportFailed
    | some resp =>
      if resp.statusCode ≠ 200 ∧ resp.statusCode ≠ 404 then .chromaResetError resp.body
      else .resetSuccessful

/-- The error cases of `ReadPDF`, one per early return. -/
inductive ExtractError where
  | openFailed
  | getPlainTextFailed
  | copyFailed
deriving DecidableEq

/-- The error cases of `addToChroma`: a propagated provisioning error plus
one case per `fmt.Errorf` site. -/
inductive AddError where
  | provisioningFailed (e : ProvisionError)
  | postFailed
  | badStatus (status : Nat) (body : List Char)

/-- The record `addToChroma` submits to the store for one chunk (the Go
code additionally attaches a fresh random UUID, which no claim mentions);
`chunkNum` is the 1-based chunk position. -/
structure StoredRecord where
  text : List Char
  embedding : List Float
  filename : String
  chunkNum : Nat

/-- Oracle environment for `processPDF`: the outcome of `ReadPDF` and, for
each 0-based chunk index, the outcomes of its `getEmbedding` and
`addToChroma` calls. -/
structure IngestEnv where
  readPDF : Except ExtractError (List Char)
  embedOutcome : Nat → Except EmbedError (List Float)
  addOutcome : Nat → Except AddError Unit

/-- The per-chunk loop of `processPDF`: for each chunk in order, get an
embedding — on failure log and continue with the next chunk — then write
the record — on failure log and continue.  The result collects the records
actually written, in order. -/
def processLoop (env : IngestEnv) (filename : String) : List (List Char) → Nat → List StoredRecord
  | [], _ => []
  | chunk :: rest, i =>
    match env.embedOutcome i with
    | .error _ => processLoop env filename rest (i + 1)
    | .ok emb =>
      match env.addOutcome i with
      | .error _ => processLoop env filename rest (i + 1)
      | .ok _ => ⟨chunk, emb, filename, i + 1⟩ :: processLoop env filename rest (i + 1)

/-- `processPDF` from `document.go`: fail only when `ReadPDF` fails;
otherwise chunk the text, run the per-chunk loop, and return successfully
no matter how many chunks were dropped.  The returned list is the trace of
records written to the store. -/
def processPDF (env : IngestEnv) (filename : String) (chunkSize chunkStride : Nat) : Except ExtractError (List StoredRecord) :=
  match env.readPDF with
  | .error e => .error e
  | .ok content => .ok (processLoop env filename (ChunkText content chunkSize chunkStride) 0)

/-- Specification-level description of the written records: chunk number
`k+1` is stored, with its text and embedding, exactly when both the
embedding call and the store write for index `k` succeed. -/
def writtenRecords (env : IngestEnv) (filename : String) (chunks : List (List Char)) : List StoredRecord :=
  chunks.enum.filterMap fun p =>
    match env.embedOutcome p.1, env.addOutcome p.1 with
    | .ok emb, .ok _ => some ⟨p.2, emb, filename, p.1 + 1⟩
    | _, _ => none

/-- The concrete scenario of claim C3: three chunks, the embedding call for
chunk 2 fails, everything else succeeds. -/
def ingestEnvC3 : IngestEnv where
  readPDF := .ok ("a b c".toList)
  embedOutcome := fun i => if i = 1 then .error .postFailed else .ok []
  addOutcome := fun _ => .ok ()

def chromaEnvC4 : ChromaEnv where
  getResp := some ⟨200, []⟩
  createResp := none
  decodeID := fun _ => some "cid"

def embedEnvC5 : EmbedEnv where
  postResp := none
  decodeEmbedding := fun _ => some []

def embedEnvC9 : EmbedEnv where
  postResp := some ⟨503, "overloaded".toList⟩
  decodeEmbedding := fun _ => some []

def queryEnvC9 : QueryEnv where
  chroma := { getResp := none, createResp := none, decodeID := fun _ => none }
  queryResp := none
  decodeQuery := fun _ => none

end Flowgo

namespace Flowgo

lemma chunkLoop_eq_nil (words : List (List Char)) (S T : Nat) :
    ∀ fuel i, words.length ≤ i → chunkLoop words S T fuel i = [] := by
  intro fuel i h
  cases fuel with
  | zero => rfl
  | succ f => simp [chunkLoop, Nat.not_lt.mpr h]

lemma ceil_div_step {T : Nat} (hT : 0 < T) {a : Nat} (ha : 1 ≤ a) :
    (a + T - 1) / T = (a - T + T - 1) / T + 1 := by
  rcases le_or_lt a T with h | h
  · have h1 : a - T = 0 := Nat.sub_eq_zero_of_le h
    have h2 : (T - 1) / T = 0 := Nat.div_eq_of_lt (by omega)
    have h3 : (a + T - 1) / T = 1 := Nat.div_eq_of_lt_le (by omega) (by omega)
    rw [h1, h3]
    simp [h2]
  · have h4 : a + T - 1 = (a - T + T - 1) + T := by omega
    rw [h4, Nat.add_div_right _ hT]

lemma chunkLoop_length (words : List (List Char)) (S T : Nat) (hT : 0 < T) :
    ∀ fuel i, words.length ≤ i + fuel →
      (chunkLoop words S T fuel i).length =
        min ((words.length - i - S + T - 1) / T + 1) ((words.length - i + T - 1) / T) := by
  intro fuel
  induction fuel with
  | zero =>
    intro i h
    have hm : words.length - i = 0 := by omega
    have h1 : words.length - i - S = 0 := by omega
    have h2 : (T - 1) / T = 0 := Nat.div_eq_of_lt (by omega)
    show (0 : Nat) = _
    rw [h1, hm]
    simp [h2]
  | succ f ih =>
    intro i h
    by_cases hi : i < words.length
    · rw [chunkLoop, if_pos hi]
      by_cases he : (if words.length < i + S then words.length else i + S) = words.length
      · rw [if_pos he]
        have hLe : words.length ≤ i + S := by
          by_cases hc : words.length < i + S
          · omega
          · rw [if_neg hc] at he; omega
        have hms : words.length - i - S = 0 := by omega
        have h2 : (T - 1) / T = 0 := Nat.div_eq_of_lt (by omega)
        have hp2 : 1 ≤ (words.length - i + T - 1) / T := by
          rw [Nat.le_div_iff_mul_le hT]
          omega
        rw [hms]
        simp only [List.length_cons, List.length_nil, Nat.zero_add, h2]
        omega
      · rw [if_neg he]
        have hlt : i + S < words.length := by
          by_cases hc : words.length < i + S
          · rw [if_pos hc] at he; omega
          · rw [if_neg hc] at he; omega
        have ihh := ih (i + T) (by omega)
        simp only [List.length_cons, ihh]
        have e1 : 1 ≤ words.length - i - S := by omega
        have e2 : 1 ≤ words.length - i := by omega
        have s1 := ceil_div_step hT e1
        have s2 := ceil_div_step hT e2
        have r1 : words.length - i - S - T = words.length - (i + T) - S := by omega
        have r2 : words.length - i - T = words.length - (i + T) := by omega
        rw [r1] at s1
        rw [r2] at s2
        rw [s1, s2]
        omega
    · rw [chunkLoop, if_neg hi]
      have hm : words.length - i = 0 := by omega
      have h1 : words.length - i - S = 0 := by omega
      have h2 : (T - 1) / T = 0 := Nat.div_eq_of_lt (by omega)
      show (0 : Nat) = _
      rw [h1, hm]
      simp [h2]

lemma chunkLoop_stable (words : List (List Char)) (S T : Nat) (hT : 0 < T) :
    ∀ fuel fuel' i, words.length ≤ i + fuel → fuel ≤ fuel' →
      chunkLoop words S T fuel' i = chunkLoop words S T fuel i := by
  intro fuel
  induction fuel with
  | zero =>
    intro fuel' i h _
    rw [chunkLoop_eq_nil words S T fuel' i (by omega)]
    rfl
  | succ f ih =>
    intro fuel' i h hle
    obtain ⟨f', rfl⟩ : ∃ f', fuel' = f' + 1 := ⟨fuel' - 1, by omega⟩
    by_cases hi : i < words.length
    · rw [chunkLoop, chunkLoop, if_pos hi, if_pos hi]
      by_cases he : (if words.length < i + S then words.length else i + S) = words.length
      · rw [if_pos he, if_pos he]
      · rw [if_neg he, if_neg he, ih f' (i + T) (by omega) (by omega)]
    · rw [chunkLoop, chunkLoop, if_neg hi, if_neg hi]

lemma chunkLoop_length_le (words : List (List Char)) (S T : Nat) (hT : 0 < T) :
    ∀ fuel i, (chunkLoop words S T fuel i).length ≤ words.length - i := by
  intro fuel
  induction fuel with
  | zero => intro i; simp [chunkLoop]
  | succ f ih =>
    intro i
    by_cases hi : i < words.length
    · rw [chunkLoop, if_pos hi]
      by_cases he : (if words.length < i + S then words.length else i + S) = words.length
      · rw [if_pos he]
        simp only [List.length_cons, List.length_nil]
        omega
      · rw [if_neg he]
        simp only [List.length_cons]
        have := ih (i + T)
        omega
    · rw [chunkLoop, if_neg hi]
      simp

end Flowgo

namespace Flowgo

lemma ceil_part_le {N S T : Nat} (hT : 0 < T) (hN : 1 ≤ N) (hTS : T ≤ S) :
    (N - S + T - 1) / T + 1 ≤ (N + T - 1) / T := by
  rcases le_or_lt N S with h | h
  · have h1 : N - S = 0 := by omega
    rw [h1]
    have h2 : (0 + T - 1) / T = 0 := by
      simp
      exact Nat.div_eq_of_lt (by omega)
    rw [h2]
    rw [Nat.le_div_iff_mul_le hT]
    omega
  · have heq : (N - S + T - 1) / T + 1 = (N - S + T - 1 + T) / T :=
      (Nat.add_div_right _ hT).symm
    rw [heq]
    apply Nat.div_le_div_right
    omega

/-- Claim C1 (amended): for a text of `N` words and `S, T > 0`, `ChunkText`
produces `min (⌈max 0 (N-S) / T⌉ + 1) ⌈N / T⌉` chunks (which is `0` at
`N = 0`); when additionally `T ≤ S` this is the claimed
`⌈max 0 (N-S) / T⌉ + 1` for `N > 0` and `0` for `N = 0`.  When `T > S` the
loop can exhaust the word list without any window reaching its end, and
then the claimed formula overcounts (see `chunkCountClaimFalse`). -/
theorem chunkCountFormula (text : List Char) (S T : Nat) (hS : 0 < S) (hT : 0 < T) :
    (ChunkText text S T).length =
      min (((fields text).length - S + T - 1) / T + 1) (((fields text).length + T - 1) / T) ∧
    (T ≤ S → (ChunkText text S T).length =
      if (fields text).length = 0 then 0
      else ((fields text).length - S + T - 1) / T + 1) := by
  have hmain : (ChunkText text S T).length =
      min (((fields text).length - S + T - 1) / T + 1) (((fields text).length + T - 1) / T) := by
    simp only [ChunkText]
    by_cases h0 : (fields text).length = 0
    · rw [if_pos h0, h0]
      have h2 : (T - 1) / T = 0 := Nat.div_eq_of_lt (by omega)
      simp [h2]
    · rw [if_neg h0]
      have h := chunkLoop_length (fields text) S T hT (fields text).length 0 (by omega)
      simpa using h
  refine ⟨hmain, fun hTS => ?_⟩
  rw [hmain]
  by_cases h0 : (fields text).length = 0
  · rw [if_pos h0, h0]
    have h2 : (T - 1) / T = 0 := Nat.div_eq_of_lt (by omega)
    simp [h2]
  · rw [if_neg h0]
    exact Nat.min_eq_left (ceil_part_le hT (by omega) hTS)

/-- Claim C1 as frozen is false on the code: the 4-word text `"a b c d"`
with chunk size `S = 1` and stride `T = 2` yields 2 chunks, not
`⌈max 0 (4-1) / 2⌉ + 1 = 3` — the words at indices 1 and 3 are never
emitted because the stride jumps past the end before any window reaches
it. -/
theorem chunkCountClaimFalse :
    (fields ("a b c d".toList)).length = 4 ∧ 0 < (1 : Nat) ∧ 0 < (2 : Nat) ∧
    (ChunkText ("a b c d".toList) 1 2).length ≠ (4 - 1 + 2 - 1) / 2 + 1 := by
  decide

theorem chunkCountFormulaWitness :
    (ChunkText ("a b c d e f g h i j k l".toList) 5 5).length = 3 := by
  have h := (chunkCountFormula ("a b c d e f g h i j k l".toList) 5 5 (by decide) (by decide)).1
  rw [h]
  decide

/-- Claim C2: when the stride is at least the number of words (and the text
has at least one word), exactly one chunk is produced: all the words when
there are at most `S` of them, and the first `S` words otherwise, joined by
single spaces. -/
theorem chunkSingleWhenStrideLarge (text : List Char) (S T : Nat) (hS : 0 < S)
    (hN : 1 ≤ (fields text).length) (hT : (fields text).length ≤ T) :
    ChunkText text S T =
      [strJoin [' '] (if (fields text).length ≤ S then fields text else (fields text).take S)] := by
  simp only [ChunkText]
  rw [if_neg (by omega)]
  obtain ⟨f, hf⟩ : ∃ f, (fields text).length = f + 1 := ⟨(fields text).length - 1, by omega⟩
  rw [hf, chunkLoop, if_pos (by omega)]
  by_cases hc : (fields text).length ≤ S
  · have he : (if (fields text).length < 0 + S then (fields text).length else 0 + S)
        = (fields text).length := by
      by_cases h2 : (fields text).length < 0 + S
      · rw [if_pos h2]
      · rw [if_neg h2]; omega
    rw [if_pos he, if_pos (show f + 1 ≤ S by omega)]
    simp only [chunkAt]
    rw [he]
    simp [List.take_length]
  · have he : (if (fields text).length < 0 + S then (fields text).length else 0 + S)
        = 0 + S := by
      rw [if_neg (by omega)]
    rw [he, if_neg (by omega), chunkLoop_eq_nil (fields text) S T f (0 + T) (by omega)]
    simp only [chunkAt]
    rw [he, if_neg (show ¬ f + 1 ≤ S by omega)]
    simp

theorem chunkSingleWhenStrideLargeWitness :
    ChunkText ("a b c".toList) 2 9 = ["a b".toList] := by
  have h := chunkSingleWhenStrideLarge ("a b c".toList) 2 9 (by decide) (by decide) (by decide)
  rw [h]
  decide

/-- Claim C10: for `S ≥ 1` and `T ≥ 1` the chunking loop terminates within
`words.length` iterations — giving it any amount of extra fuel beyond what
`ChunkText` supplies never changes the result, because the start index
strictly increases each iteration and the loop stops at the end of the word
list — and the chunk list is finite, with at most one chunk per word. -/
theorem chunkTextTerminates (text : List Char) (S T : Nat) (hS : 0 < S) (hT : 0 < T) :
    (∀ extra, chunkLoop (fields text) S T ((fields text).length + extra) 0 = ChunkText text S T) ∧
    (ChunkText text S T).length ≤ (fields text).length := by
  constructor
  · intro extra
    simp only [ChunkText]
    by_cases h0 : (fields text).length = 0
    · rw [if_pos h0]
      exact chunkLoop_eq_nil _ _ _ _ _ (by omega)
    · rw [if_neg h0]
      exact chunkLoop_stable (fields text) S T hT (fields text).length
        ((fields text).length + extra) 0 (by omega) (by omega)
  · simp only [ChunkText]
    by_cases h0 : (fields text).length = 0
    · rw [if_pos h0]
      simp
    · rw [if_neg h0]
      have h := chunkLoop_length_le (fields text) S T hT (fields text).length 0
      omega

theorem chunkTextTerminatesWitness :
    chunkLoop (fields ("a b c".toList)) 1 1 8 0 = ChunkText ("a b c".toList) 1 1 := by
  exact (chunkTextTerminates ("a b c".toList) 1 1 (by decide) (by decide)).1 5

end Flowgo

namespace Flowgo

lemma fields_wordlike (s : List Char) :
    ∀ w ∈ fields s, w ≠ [] ∧ ∀ c ∈ w, goIsSpace c = false := by
  induction s using fields.induct with
  | case1 => simp [fields]
  | case2 c hc => simp [fields, hc]
  | case3 c hc =>
    intro w hw
    simp only [Bool.not_eq_true] at hc
    simp only [fields, hc, if_false, Bool.false_eq_true, List.mem_singleton] at hw
    subst hw
    refine ⟨by simp, ?_⟩
    intro ch hch
    simp only [List.mem_singleton] at hch
    subst hch
    exact hc
  | case4 c d rest hc ih =>
    intro w hw
    simp only [fields, hc, if_true] at hw
    exact ih w hw
  | case5 c d rest hc hd ih =>
    intro w hw
    simp only [Bool.not_eq_true] at hc
    simp only [fields, hc, hd, Bool.false_eq_true, if_false, if_true, List.mem_cons] at hw
    rcases hw with rfl | hw'
    · refine ⟨by simp, ?_⟩
      intro ch hch
      simp only [List.mem_singleton] at hch
      subst hch
      exact hc
    · exact ih w hw'
  | case6 c d rest hc hd hnil ih =>
    intro w hw
    simp only [Bool.not_eq_true] at hc
    simp only [fields, hc, hd, Bool.false_eq_true, if_false, hnil, List.mem_singleton] at hw
    subst hw
    refine ⟨by simp, ?_⟩
    intro ch hch
    simp only [List.mem_singleton] at hch
    subst hch
    exact hc
  | case7 c d rest hc hd w0 ws0 heq ih =>
    intro w hw
    simp only [Bool.not_eq_true] at hc hd
    simp only [fields, hc, hd, Bool.false_eq_true, if_false, heq, List.mem_cons] at hw
    rcases hw with rfl | hw'
    · have h0 := ih w0 (by rw [heq]; exact List.mem_cons_self w0 ws0)
      refine ⟨by simp, ?_⟩
      intro ch hch
      rcases List.mem_cons.mp hch with rfl | hch'
      · exact hc
      · exact h0.2 ch hch'
    · exact ih w (by rw [heq]; exact List.mem_cons_of_mem w0 hw')

lemma fields_space_cons (c : Char) (rest : List Char) (hc : goIsSpace c = true) :
    fields (c :: rest) = fields rest := by
  cases rest with
  | nil => simp [fields, hc]
  | cons d rest' => simp [fields, hc]

lemma fields_word (w : List Char) (hw : w ≠ [])
    (hns : ∀ c ∈ w, goIsSpace c = false) : fields w = [w] := by
  induction w with
  | nil => exact absurd rfl hw
  | cons c w ih =>
    cases w with
    | nil => simp [fields, hns c (List.mem_singleton.mpr rfl)]
    | cons d w' =>
      have hc : goIsSpace c = false := hns c (List.mem_cons_self _ _)
      have hd : goIsSpace d = false := hns d (List.mem_cons_of_mem _ (List.mem_cons_self _ _))
      have ih' : fields (d :: w') = [d :: w'] :=
        ih (by simp) (fun ch hch => hns ch (List.mem_cons_of_mem _ hch))
      simp only [fields, hc, hd, Bool.false_eq_true, if_false, ih']

lemma fields_word_append (w : List Char) (rest : List Char) (hw : w ≠ [])
    (hns : ∀ c ∈ w, goIsSpace c = false) :
    fields (w ++ ' ' :: rest) = w :: fields rest := by
  induction w with
  | nil => exact absurd rfl hw
  | cons c w ih =>
    cases w with
    | nil =>
      have hc : goIsSpace c = false := hns c (List.mem_singleton.mpr rfl)
      simp only [List.cons_append, List.nil_append]
      simp only [fields, hc, Bool.false_eq_true, if_false,
        show goIsSpace ' ' = true from by decide, if_true]
      rw [fields_space_cons ' ' rest (by decide)]
    | cons d w' =>
      have hc : goIsSpace c = false := hns c (List.mem_cons_self _ _)
      have hd : goIsSpace d = false := hns d (List.mem_cons_of_mem _ (List.mem_cons_self _ _))
      have ih' := ih (by simp) (fun ch hch => hns ch (List.mem_cons_of_mem _ hch))
      simp only [List.cons_append] at ih' ⊢
      simp only [fields, hc, hd, Bool.false_eq_true, if_false, ih']

lemma fields_strJoin (ws : List (List Char))
    (h : ∀ w ∈ ws, w ≠ [] ∧ ∀ c ∈ w, goIsSpace c = false) :
    fields (strJoin [' '] ws) = ws := by
  induction ws with
  | nil => rfl
  | cons w ws ih =>
    cases ws with
    | nil =>
      have hw := h w (List.mem_singleton.mpr rfl)
      simp only [strJoin]
      exact fields_word w hw.1 hw.2
    | cons x ws' =>
      have hw := h w (List.mem_cons_self _ _)
      have hrest := ih (fun v hv => h v (List.mem_cons_of_mem _ hv))
      simp only [strJoin] at hrest ⊢
      rw [List.append_assoc, List.singleton_append,
        fields_word_append w _ hw.1 hw.2, hrest]

lemma wordCount_chunkAt (words : List (List Char)) (S j : Nat)
    (hws : ∀ w ∈ words, w ≠ [] ∧ ∀ c ∈ w, goIsSpace c = false)
    (hj : j < words.length) :
    wordCount (chunkAt words S j) = min S (words.length - j) := by
  unfold wordCount chunkAt
  set e := if words.length < j + S then words.length else j + S with he
  have hsub : ∀ w ∈ List.take (e - j) (List.drop j words),
      w ≠ [] ∧ ∀ c ∈ w, goIsSpace c = false := by
    intro w hw
    exact hws w (List.drop_subset j words (List.take_subset _ _ hw))
  rw [fields_strJoin _ hsub, List.length_take, List.length_drop]
  by_cases hcond : words.length < j + S
  · have hE : e = words.length := by rw [he, if_pos hcond]
    omega
  · have hE : e = j + S := by rw [he, if_neg hcond]
    omega

lemma chunkLoop_mem (words : List (List Char)) (S T : Nat) :
    ∀ fuel i c, c ∈ chunkLoop words S T fuel i →
      ∃ j, i ≤ j ∧ j < words.length ∧ c = chunkAt words S j := by
  intro fuel
  induction fuel with
  | zero => intro i c hc; simp [chunkLoop] at hc
  | succ f ih =>
    intro i c hc
    by_cases hi : i < words.length
    · rw [chunkLoop, if_pos hi] at hc
      by_cases he : (if words.length < i + S then words.length else i + S) = words.length
      · rw [if_pos he] at hc
        rw [List.mem_singleton] at hc
        exact ⟨i, le_refl i, hi, hc⟩
      · rw [if_neg he] at hc
        rcases List.mem_cons.mp hc with rfl | hc'
        · exact ⟨i, le_refl i, hi, rfl⟩
        · obtain ⟨j, h1, h2, h3⟩ := ih (i + T) c hc'
          exact ⟨j, by omega, h2, h3⟩
    · rw [chunkLoop, if_neg hi] at hc
      simp at hc

lemma chunkLoop_dropLast (words : List (List Char)) (S T : Nat) :
    ∀ fuel i c, c ∈ (chunkLoop words S T fuel i).dropLast →
      ∃ j, j + S < words.length ∧ c = chunkAt words S j := by
  intro fuel
  induction fuel with
  | zero => intro i c hc; simp [chunkLoop] at hc
  | succ f ih =>
    intro i c hc
    by_cases hi : i < words.length
    · rw [chunkLoop, if_pos hi] at hc
      by_cases he : (if words.length < i + S then words.length else i + S) = words.length
      · rw [if_pos he] at hc
        simp at hc
      · rw [if_neg he] at hc
        have hlt : i + S < words.length := by
          by_cases hc2 : words.length < i + S
          · rw [if_pos hc2] at he; omega
          · rw [if_neg hc2] at he; omega
        cases hr : chunkLoop words S T f (i + T) with
        | nil => rw [hr] at hc; simp at hc
        | cons r rs =>
          rw [hr, List.dropLast_cons_of_ne_nil (List.cons_ne_nil r rs)] at hc
          rcases List.mem_cons.mp hc with rfl | hc'
          · exact ⟨i, hlt, rfl⟩
          · rw [← hr] at hc'
            exact ih (i + T) c hc'
    · rw [chunkLoop, if_neg hi] at hc
      simp at hc

/-- Claim C6: every chunk except possibly the last has exactly `S` words,
and every chunk (the last included) has between 1 and `S` words. -/
theorem chunkSizes (text : List Char) (S T : Nat) (hS : 0 < S) (hT : 0 < T) :
    (∀ c ∈ (ChunkText text S T).dropLast, wordCount c = S) ∧
    (∀ c ∈ ChunkText text S T, 1 ≤ wordCount c ∧ wordCount c ≤ S) := by
  have hws := fields_wordlike text
  constructor
  · intro c hc
    by_cases h0 : (fields text).length = 0
    · simp only [ChunkText, if_pos h0] at hc
      simp at hc
    · simp only [ChunkText, if_neg h0] at hc
      obtain ⟨j, hjS, rfl⟩ := chunkLoop_dropLast (fields text) S T _ 0 c hc
      rw [wordCount_chunkAt (fields text) S j hws (by omega)]
      omega
  · intro c hc
    by_cases h0 : (fields text).length = 0
    · simp only [ChunkText, if_pos h0] at hc
      simp at hc
    · simp only [ChunkText, if_neg h0] at hc
      obtain ⟨j, _, hjL, rfl⟩ := chunkLoop_mem (fields text) S T _ 0 c hc
      rw [wordCount_chunkAt (fields text) S j hws hjL]
      omega

theorem chunkSizesWitness :
    1 ≤ wordCount ("a b".toList) ∧ wordCount ("a b".toList) ≤ 2 :=
  (chunkSizes ("a b c".toList) 2 1 (by decide) (by decide)).2 ("a b".toList) (by decide)

lemma chunkLoop_coverage (words : List (List Char)) (S T : Nat) (hT : 0 < T) (hTS : T ≤ S) :
    ∀ fuel i, words.length ≤ i + fuel → ∀ n, i ≤ n → n < words.length →
      ∃ j, i ≤ j ∧ j ≤ n ∧ n < j + S ∧ chunkAt words S j ∈ chunkLoop words S T fuel i := by
  intro fuel
  induction fuel with
  | zero => intro i h n h1 h2; omega
  | succ f ih =>
    intro i h n h1 h2
    have hi : i < words.length := by omega
    rw [chunkLoop, if_pos hi]
    by_cases he : (if words.length < i + S then words.length else i + S) = words.length
    · rw [if_pos he]
      have hLe : words.length ≤ i + S := by
        by_cases hc : words.length < i + S
        · omega
        · rw [if_neg hc] at he; omega
      exact ⟨i, le_refl i, h1, by omega, List.mem_singleton.mpr rfl⟩
    · rw [if_neg he]
      have hlt : i + S < words.length := by
        by_cases hc : words.length < i + S
        · rw [if_pos hc] at he; omega
        · rw [if_neg hc] at he; omega
      by_cases hn : n < i + S
      · exact ⟨i, le_refl i, h1, hn, List.mem_cons_self _ _⟩
      · obtain ⟨j, hj1, hj2, hj3, hj4⟩ := ih (i + T) (by omega) n (by omega) h2
        exact ⟨j, by omega, hj2, hj3, List.mem_cons_of_mem _ hj4⟩

/-- Claim C7: when `T ≤ S` the chunks cover the whole word sequence — every
word index `n` of the whitespace-split input lies in the window `[j, j+S)`
of some produced chunk. -/
theorem chunkCoverage (text : List Char) (S T : Nat) (hS : 0 < S) (hT : 0 < T)
    (hTS : T ≤ S) :
    ∀ n, n < (fields text).length →
      ∃ j, j ≤ n ∧ n < j + S ∧ chunkAt (fields text) S j ∈ ChunkText text S T := by
  intro n hn
  simp only [ChunkText]
  rw [if_neg (by omega)]
  obtain ⟨j, _, hj2, hj3, hj4⟩ :=
    chunkLoop_coverage (fields text) S T hT hTS (fields text).length 0 (by omega) n
      (by omega) hn
  exact ⟨j, hj2, hj3, hj4⟩

theorem chunkCoverageWitness :
    ∃ j, j ≤ 1 ∧ 1 < j + 2 ∧
      chunkAt (fields ("a b c".toList)) 2 j ∈ ChunkText ("a b c".toList) 2 1 :=
  chunkCoverage ("a b c".toList) 2 1 (by decide) (by decide) (by decide) 1 (by decide)

end Flowgo

namespace Flowgo

lemma processLoop_enumFrom (env : IngestEnv) (fn : String) :
    ∀ chunks i, processLoop env fn chunks i =
      (List.enumFrom i chunks).filterMap fun p =>
        match env.embedOutcome p.1, env.addOutcome p.1 with
        | .ok emb, .ok _ => some ⟨p.2, emb, fn, p.1 + 1⟩
        | _, _ => none := by
  intro chunks
  induction chunks with
  | nil => intro i; rfl
  | cons chunk rest ih =>
    intro i
    simp only [processLoop, List.enumFrom, List.filterMap_cons]
    cases hemb : env.embedOutcome i with
    | error e => simp [hemb, ih]
    | ok emb =>
      cases hadd : env.addOutcome i with
      | error e => simp [hemb, hadd, ih]
      | ok u => simp [hemb, hadd, ih]

lemma processLoop_spec (env : IngestEnv) (fn : String) (chunks : List (List Char)) :
    processLoop env fn chunks 0 = writtenRecords env fn chunks := by
  unfold writtenRecords
  rw [processLoop_enumFrom]
  rfl

lemma writtenRecords_mem (env : IngestEnv) (fn : String) (chunks : List (List Char)) :
    ∀ r ∈ writtenRecords env fn chunks, ∃ k emb, r.chunkNum = k + 1 ∧
      env.embedOutcome k = .ok emb ∧ ∃ u, env.addOutcome k = .ok u := by
  intro r hr
  unfold writtenRecords at hr
  rw [List.mem_filterMap] at hr
  obtain ⟨p, hp, hfp⟩ := hr
  cases hemb : env.embedOutcome p.1 with
  | error e => rw [hemb] at hfp; simp at hfp
  | ok emb =>
    cases hadd : env.addOutcome p.1 with
    | error e => rw [hemb, hadd] at hfp; simp at hfp
    | ok u =>
      rw [hemb, hadd] at hfp
      simp only [Option.some.injEq] at hfp
      subst hfp
      exact ⟨p.1, emb, rfl, hemb, u, hadd⟩

/-- Claim C3: whenever text extraction succeeds, `processPDF` returns
success no matter which per-chunk embedding or store calls fail; the trace
of written records is exactly the chunks whose embedding and write both
succeeded (each with its 1-based `chunk_num`), and a chunk whose embedding
call fails is skipped — no record with its chunk number is ever written —
while the loop continues with the other chunks. -/
theorem ingestionBestEffort (env : IngestEnv) (filename : String) (S T : Nat)
    (content : List Char) (hread : env.readPDF = .ok content) :
    processPDF env filename S T =
      .ok (writtenRecords env filename (ChunkText content S T)) ∧
    ∀ k e, env.embedOutcome k = .error e →
      ∀ r ∈ writtenRecords env filename (ChunkText content S T), r.chunkNum ≠ k + 1 := by
  constructor
  · simp only [processPDF, hread]
    rw [processLoop_spec]
  · intro k e hk r hr hnum
    obtain ⟨k', emb, hnum', hemb, _, _⟩ :=
      writtenRecords_mem env filename (ChunkText content S T) r hr
    have : k' = k := by omega
    subst this
    rw [hk] at hemb
    exact Except.noConfusion hemb

theorem ingestionBestEffortWitness :
    processPDF ingestEnvC3 "f.pdf" 1 1 =
      .ok [⟨"a".toList, [], "f.pdf", 1⟩, ⟨"c".toList, [], "f.pdf", 3⟩] := by
  have h := (ingestionBestEffort ingestEnvC3 "f.pdf" 1 1 ("a b c".toList) rfl).1
  rw [h]
  rfl

/-- Claim C4: `getOrCreateCollection` returns the identifier parsed from a
successful GET; on a transport failure or any non-200 GET status it falls
through to creation, which returns the parsed identifier on a 200/201
status, fails with the upstream status and body on any other status, and
fails when a nominally successful creation yields an empty identifier. -/
theorem getOrCreateCollectionBehavior (env : ChromaEnv) :
    (∀ r cid, env.getResp = some r → r.statusCode = 200 →
      env.decodeID r.body = some cid → getOrCreateCollection env = .ok cid) ∧
    (∀ r, env.getResp = some r → r.statusCode ≠ 200 →
      getOrCreateCollection env = createCollection env) ∧
    (env.getResp = none → getOrCreateCollection env = createCollection env) ∧
    (env.createResp = none → createCollection env = .error .createPostFailed) ∧
    (∀ r, env.createResp = some r → r.statusCode ≠ 200 → r.statusCode ≠ 201 →
      createCollection env = .error (.createBadStatus r.statusCode r.body)) ∧
    (∀ r cid, env.createResp = some r → (r.statusCode = 200 ∨ r.statusCode = 201) →
      env.decodeID r.body = some cid → cid ≠ "" → createCollection env = .ok cid) ∧
    (∀ r, env.createResp = some r → (r.statusCode = 200 ∨ r.statusCode = 201) →
      env.decodeID r.body = some "" →
      createCollection env = .error .emptyCollectionID) := by
  refine ⟨?_, ?_, ?_, ?_, ?_, ?_, ?_⟩
  · intro r cid hr hs hd
    simp [getOrCreateCollection, hr, hs, hd]
  · intro r hr hs
    simp [getOrCreateCollection, hr, hs]
  · intro hr
    simp [getOrCreateCollection, hr]
  · intro hr
    simp [createCollection, hr]
  · intro r hr h1 h2
    simp [createCollection, hr, h1, h2]
  · intro r cid hr hs hd hne
    have hcond : ¬ (r.statusCode ≠ 200 ∧ r.statusCode ≠ 201) := by tauto
    simp [createCollection, hr, hcond, hd, hne]
  · intro r hr hs hd
    have hcond : ¬ (r.statusCode ≠ 200 ∧ r.statusCode ≠ 201) := by tauto
    simp [createCollection, hr, hcond, hd]

theorem getOrCreateCollectionBehaviorWitness :
    getOrCreateCollection chromaEnvC4 = .ok "cid" :=
  (getOrCreateCollectionBehavior chromaEnvC4).1 ⟨200, []⟩ "cid" rfl rfl rfl

/-- Claim C5: `getEmbedding` fails exactly when the network call fails, the
provider responds with a non-200 status (the body is carried in the
error), or the response body cannot be decoded; otherwise it returns the
parsed vector. -/
theorem getEmbeddingErrors (env : EmbedEnv) :
    (∀ r v, env.postResp = some r → r.statusCode = 200 →
      env.decodeEmbedding r.body = some v → getEmbedding env = .ok v) ∧
    (env.postResp = none → getEmbedding env = .error .postFailed) ∧
    (∀ r, env.postResp = some r → r.statusCode ≠ 200 →
      getEmbedding env = .error (.badStatus r.statusCode r.body)) ∧
    (∀ r, env.postResp = some r → r.statusCode = 200 →
      env.decodeEmbedding r.body = none → getEmbedding env = .error .decodeFailed) ∧
    ((∃ e, getEmbedding env = .error e) ↔
      env.postResp = none ∨ ∃ r, env.postResp = some r ∧
        (r.statusCode ≠ 200 ∨ env.decodeEmbedding r.body = none)) := by
  refine ⟨?_, ?_, ?_, ?_, ?_⟩
  · intro r v hr hs hd
    simp [getEmbedding, hr, hs, hd]
  · intro hr
    simp [getEmbedding, hr]
  · intro r hr hs
    simp [getEmbedding, hr, hs]
  · intro r hr hs hd
    simp [getEmbedding, hr, hs, hd]
  · constructor
    · rintro ⟨e, he⟩
      cases hr : env.postResp with
      | none => exact Or.inl rfl
      | some r =>
        refine Or.inr ⟨r, rfl, ?_⟩
        by_cases hs : r.statusCode = 200
        · refine Or.inr ?_
          cases hd : env.decodeEmbedding r.body with
          | none => rfl
          | some v => simp [getEmbedding, hr, hs, hd] at he
        · exact Or.inl hs
    · rintro (hr | ⟨r, hr, hs | hd⟩)
      · exact ⟨.postFailed, by simp [getEmbedding, hr]⟩
      · exact ⟨.badStatus r.statusCode r.body, by simp [getEmbedding, hr, hs]⟩
      · by_cases hs : r.statusCode = 200
        · exact ⟨.decodeFailed, by simp [getEmbedding, hr, hs, hd]⟩
        · exact ⟨.badStatus r.statusCode r.body, by simp [getEmbedding, hr, hs]⟩

theorem getEmbeddingErrorsWitness :
    getEmbedding embedEnvC5 = .error .postFailed :=
  (getEmbeddingErrors embedEnvC5).2.1 rfl

/-- Claim C8: the reset handler treats a 404 from the delete
endpoint of the store as success (deleting a nonexistent collection succeeds), succeeds
on a 200, and fails — surfacing the upstream body — on every status other
than 200 and 404. -/
theorem resetIdempotentDelete (method : String) (reqOk : Bool)
    (deleteResp : Option HttpResponse)
    (hm : method = "POST" ∨ method = "GET") (hok : reqOk = true) :
    (∀ r, deleteResp = some r → r.statusCode = 404 →
      HandleReset method reqOk deleteResp = .resetSuccessful) ∧
    (∀ r, deleteResp = some r → r.statusCode = 200 →
      HandleReset method reqOk deleteResp = .resetSuccessful) ∧
    (∀ r, deleteResp = some r → r.statusCode ≠ 200 → r.statusCode ≠ 404 →
      HandleReset method reqOk deleteResp = .chromaResetError r.body) := by
  have hcond : ¬ (method ≠ "POST" ∧ method ≠ "GET") := by
    rcases hm with rfl | rfl <;> simp
  subst hok
  refine ⟨?_, ?_, ?_⟩
  · intro r hr hs
    simp [HandleReset, hcond, hr, hs]
  · intro r hr hs
    simp [HandleReset, hcond, hr, hs]
  · intro r hr h1 h2
    simp [HandleReset, hcond, hr, h1, h2]

theorem resetIdempotentDeleteWitness :
    HandleReset "POST" true (some ⟨404, []⟩) = .resetSuccessful :=
  (resetIdempotentDelete "POST" true (some ⟨404, []⟩) (Or.inl rfl) rfl).1 ⟨404, []⟩ rfl rfl

/-- Claim C9: the search handler propagates a failed embedding call and a
failed store query as errors to the caller, and only returns results when
both calls succeeded — a failure is never converted into an empty or
partial result. -/
theorem searchErrorPropagation (method q : String) (eenv : EmbedEnv) (qenv : QueryEnv)
    (hm : method = "GET") (hq : q ≠ "") :
    (∀ e, getEmbedding eenv = .error e →
      HandleSearch method q eenv qenv = .embedFailed e) ∧
    (∀ v e, getEmbedding eenv = .ok v → queryChroma qenv = .error e →
      HandleSearch method q eenv qenv = .queryFailed e) ∧
    (∀ r, HandleSearch method q eenv qenv = .results r →
      (∃ v, getEmbedding eenv = .ok v) ∧ queryChroma qenv = .ok r) := by
  subst hm
  refine ⟨?_, ?_, ?_⟩
  · intro e he
    simp [HandleSearch, hq, he]
  · intro v e hv he
    simp [HandleSearch, hq, hv, he]
  · intro r hr
    cases hv : getEmbedding eenv with
    | error e => simp [HandleSearch, hq, hv] at hr
    | ok v =>
      cases hqc : queryChroma qenv with
      | error e => simp [HandleSearch, hq, hv, hqc] at hr
      | ok res =>
        simp [HandleSearch, hq, hv, hqc] at hr
        subst hr
        exact ⟨⟨v, rfl⟩, rfl⟩

theorem searchErrorPropagationWitness :
    HandleSearch "GET" "hello" embedEnvC9 queryEnvC9 =
      .embedFailed (.badStatus 503 ("overloaded".toList)) :=
  (searchErrorPropagation "GET" "hello" embedEnvC9 queryEnvC9 rfl (by decide)).1
    (.badStatus 503 ("overloaded".toList)) rfl

end Flowgo
